import Mathlib

/-!
Shallow embedding of the mui-bueno CLI dependency-resolution core
(src/services/git-service.ts and src/commands/download.ts).

Paths are modeled as strings over a POSIX filesystem; the node `path`
functions used by the source (resolve, join, relative, basename, dirname,
extname) are embedded below over segment lists.  The filesystem consulted
by `fs.pathExists` is modeled as a Boolean existence predicate.  Regex
based extraction of relative imports (`extractLocalImports`) is not
re-modeled: the analyzer functions receive the list of extracted
relative-import specifiers of a file set directly as input.
-/

/-! ## String helpers (JS `startsWith`, `includes`, `endsWith`, `replace`) -/

/-- `listStarts needle hay` is true when `needle` is a prefix of `hay`. -/
def listStarts : List Char → List Char → Bool
  | [], _ => true
  | _ :: _, [] => false
  | a :: as, b :: bs => a == b && listStarts as bs

/-- JS `s.startsWith(p)`. -/
def strStartsWith (s p : String) : Bool := listStarts p.toList s.toList

/-- `containsSub needle hay` is true when `needle` occurs inside `hay`. -/
def containsSub (needle : List Char) : List Char → Bool
  | [] => needle.isEmpty
  | c :: t => listStarts needle (c :: t) || containsSub needle t

/-- JS `s.includes(sub)`. -/
def strContains (s sub : String) : Bool := containsSub sub.toList s.toList

/-- JS `s.endsWith(suf)`. -/
def strEndsWith (s suf : String) : Bool :=
  listStarts suf.toList.reverse s.toList.reverse

/-- Replace the first occurrence of `pat` in a char list (JS
`String.prototype.replace` with a string pattern). -/
def replaceFirstCh (pat repl : List Char) : List Char → List Char
  | [] => if listStarts pat [] then repl else []
  | c :: rest =>
    if listStarts pat (c :: rest) then repl ++ (c :: rest).drop pat.length
    else c :: replaceFirstCh pat repl rest

/-- JS `s.replace(pat, repl)` (first occurrence only). -/
def replaceFirst (s pat repl : String) : String :=
  String.mk (replaceFirstCh pat.toList repl.toList s.toList)

/-! ## POSIX path model -/

/-- Split a char list on `'/'`, keeping empty segments
(JS `s.split('/')`; `""` gives `[""]`). -/
def splitKeepCh : List Char → List String
  | [] => [""]
  | c :: rest =>
    let r := splitKeepCh rest
    if c = '/' then "" :: r
    else (String.mk (c :: (r.headD "").toList)) :: r.tail

/-- JS `s.split('/')`. -/
def splitKeep (s : String) : List String := splitKeepCh s.toList

/-- Path segments: split on `'/'` and drop empty segments. -/
def splitSegs (s : String) : List String :=
  (splitKeepCh s.toList).filter (fun seg => seg ≠ "")

/-- Join segments with `'/'` (JS `parts.join('/')` for `sep = "/"`). -/
def joinWith (sep : String) : List String → String
  | [] => ""
  | [s] => s
  | s :: rest => s ++ sep ++ joinWith sep rest

/-- Join path segments with `'/'`. -/
def joinSegs (l : List String) : String := joinWith "/" l

/-- Normalization stack: processes `"."` and `".."` segments the way node
`path.resolve` does for absolute paths (`".."` at the root stays at the
root).  The accumulator holds the already-processed segments reversed. -/
def normStack (acc : List String) : List String → List String
  | [] => acc
  | seg :: rest =>
    if seg = "." then normStack acc rest
    else if seg = ".." then normStack (acc.drop 1) rest
    else normStack (seg :: acc) rest

/-- Normalize a segment list, eliminating `"."` and `".."`. -/
def normSegs (l : List String) : List String := (normStack [] l).reverse

/-- Render an absolute path from segments. -/
def renderAbs (l : List String) : String := "/" ++ joinSegs l

/-- node `path.resolve(base, rel)` for an absolute `base` and relative `rel`. -/
def pathResolve (base rel : String) : String :=
  renderAbs (normSegs (splitSegs base ++ splitSegs rel))

/-- node `path.join(a, b)` for an absolute `a`. -/
def pathJoin (a b : String) : String :=
  renderAbs (normSegs (splitSegs a ++ splitSegs b))

/-- Drop the common leading segments of two segment lists. -/
def stripCommon : List String → List String → (List String × List String)
  | x :: xs, y :: ys =>
    if x = y then stripCommon xs ys else (x :: xs, y :: ys)
  | xs, ys => (xs, ys)

/-- node `path.relative(f, t)` for absolute `f`, `t`. -/
def pathRelative (f t : String) : String :=
  let fs := normSegs (splitSegs f)
  let ts := normSegs (splitSegs t)
  let p := stripCommon fs ts
  joinSegs (p.1.map (fun _ => "..") ++ p.2)

/-- node `path.basename`. -/
def pathBasename (p : String) : String := (splitSegs p).getLastD ""

/-- node `path.dirname` for an absolute path. -/
def pathDirname (p : String) : String := renderAbs (splitSegs p).dropLast

/-- Extension of one path segment: from the last `'.'` (inclusive) to the
end, empty when there is no dot or the only dot starts the segment
(node `path.extname` on a name without separators). -/
def extOfSeg (seg : String) : String :=
  let cs := seg.toList
  if cs.contains '.' then
    let tailAfter := cs.reverse.takeWhile (fun c => c ≠ '.')
    let k := cs.length - 1 - tailAfter.length
    if k = 0 then "" else String.mk (cs.drop k)
  else ""

/-- node `path.extname`. -/
def pathExtname (p : String) : String := extOfSeg (pathBasename p)

/-! ## Data model (src/services/git-service.ts) -/

/-- A discovered component record (`{name, path}` produced by
`findAllComponents`): `name` is the slash-joined path relative to the
components root, `path` the absolute directory. -/
structure Comp where
  name : String
  path : String
deriving DecidableEq, Repr

/-- The result of `findAllDependencies`. -/
structure DependencySet where
  components : List String
  sharedFiles : List String
deriving DecidableEq, Repr

/-! ## Dependency Analyzer (git-service.ts lines 285-338, 340-383, 909-977) -/

/-- The descending prefix-shortening loop at the end of
`resolveComponentDependency` (lines 959-970): for `i` from
`dirParts.length` down to `1`, look up the name joined from the first `i`
directory parts; a hit that is not the current component's name wins. -/
def shortenLoop (dirParts : List String) (allComponents : List Comp)
    (currentComponentName : String) : Nat → Option String
  | 0 => none
  | i + 1 =>
    let potentialName := joinSegs (dirParts.take (i + 1))
    match allComponents.find? (fun comp => comp.name == potentialName) with
    | some foundComponent =>
      if foundComponent.name != currentComponentName then some foundComponent.name
      else shortenLoop dirParts allComponents currentComponentName i
    | none => shortenLoop dirParts allComponents currentComponentName i

/-- The classification part of `resolveComponentDependency` (lines
932-970), taking the already-resolved candidate path: containment check
against the components root, the direct path-containment scan over the
index, then the prefix-shortening fallback. -/
def resolveComponentDependencyFrom (resolvedPath currentComponentPath componentsBasePath : String)
    (allComponents : List Comp) : Option String :=
  if strStartsWith resolvedPath componentsBasePath = false then none
  else
    match allComponents.find? (fun component =>
        strStartsWith resolvedPath component.path
          && component.path != currentComponentPath) with
    | some component => some component.name
    | none =>
      let relativePath := pathRelative componentsBasePath resolvedPath
      let pathParts := splitKeep relativePath
      let dirParts :=
        if extOfSeg (pathParts.getLastD "") ≠ "" then pathParts.dropLast else pathParts
      let currentComponentName := pathRelative componentsBasePath currentComponentPath
      shortenLoop dirParts allComponents currentComponentName dirParts.length

/-- `resolveComponentDependency` (lines 909-977).  Purely path-syntactic:
an extensionless import takes the first candidate `resolved + ".tsx"`
(lines 920-929 build four candidates and take `potentialPaths[0]` without
consulting the filesystem). -/
def resolveComponentDependency (importPath currentComponentPath componentsBasePath : String)
    (allComponents : List Comp) : Option String :=
  let resolved0 := pathResolve currentComponentPath importPath
  resolveComponentDependencyFrom
    (if pathExtname importPath = "" then resolved0 ++ ".tsx" else resolved0)
    currentComponentPath componentsBasePath allComponents

/-- `resolveSharedFileDependency` (lines 340-383).  `fsExists` models
`fs.pathExists`; classification as a shared file requires the resolved
path to exist on disk, lie under `srcPath` and outside the components
subtree. -/
def resolveSharedFileDependency (importPath currentComponentPath srcPath : String)
    (fsExists : String → Bool) : Option String :=
  let resolved0 := pathResolve currentComponentPath importPath
  let resolvedPath :=
    if pathExtname importPath = "" then
      let potentialPaths :=
        [resolved0 ++ ".tsx", resolved0 ++ ".ts", resolved0 ++ ".jsx", resolved0 ++ ".js",
         pathJoin resolved0 "index.tsx", pathJoin resolved0 "index.ts",
         pathJoin resolved0 "index.js"]
      match potentialPaths.find? fsExists with
      | some p => p
      | none => resolved0
    else resolved0
  if strStartsWith resolvedPath srcPath && fsExists resolvedPath then
    if strContains resolvedPath (pathJoin srcPath "components") then none
    else some resolvedPath
  else none

/-- The shared-file arm of the classification in `findAllDependencies`
(lines 319-330): an import that did not yield a fresh component
dependency is probed as a shared file and appended if new. -/
def addShared (acc : DependencySet) (importPath componentPath srcPath : String)
    (fsExists : String → Bool) : DependencySet :=
  match resolveSharedFileDependency importPath componentPath srcPath fsExists with
  | some sharedFileDep =>
    if acc.sharedFiles.contains sharedFileDep then acc
    else { acc with sharedFiles := acc.sharedFiles ++ [sharedFileDep] }
  | none => acc

/-- One iteration of the import loop of `findAllDependencies` (lines
308-331): try the component resolution first; a fresh hit is appended,
anything else falls through to the shared-file probe. -/
def analyzeImport (componentPath srcPath : String) (allComponents : List Comp)
    (fsExists : String → Bool) (acc : DependencySet) (importPath : String) : DependencySet :=
  match resolveComponentDependency importPath componentPath
      (pathJoin srcPath "components") allComponents with
  | some componentDep =>
    if acc.components.contains componentDep then
      addShared acc importPath componentPath srcPath fsExists
    else { acc with components := acc.components ++ [componentDep] }
  | none => addShared acc importPath componentPath srcPath fsExists

/-- `findAllDependencies` (lines 285-338).  `imports` is the flattened
list of relative import specifiers extracted (in file order) from the
component's code files by `extractLocalImports`. -/
def findAllDependencies (imports : List String) (componentPath srcPath : String)
    (allComponents : List Comp) (fsExists : String → Bool) : DependencySet :=
  imports.foldl (analyzeImport componentPath srcPath allComponents fsExists) ⟨[], []⟩

/-! ## Shared-file download (git-service.ts lines 385-437) -/

/-- The path simplification of `downloadSharedFile` (lines 390-397):
a `common/Utils` occurrence collapses to `Utils`, otherwise a `common/`
occurrence is stripped (first occurrence each, as JS `replace`). -/
def sharedSimplifiedPath (relativePath : String) : String :=
  if strContains relativePath "common/Utils" then
    replaceFirst relativePath "common/Utils" "Utils"
  else if strContains relativePath "common/" then
    replaceFirst relativePath "common/" ""
  else relativePath

/-- Where `downloadSharedFile` (lines 385-411) copies a shared file:
`targetDir/shared/<simplified source-relative path>`. -/
def downloadSharedFileTarget (sharedFilePath srcPath targetDir : String) : String :=
  pathJoin (pathJoin targetDir "shared") (sharedSimplifiedPath (pathRelative srcPath sharedFilePath))

/-- One iteration of the import loop of `downloadSharedFileOwnDependencies`
(lines 418-433): only an import mentioning `@types` triggers a copy, and
only when `srcPath/@types` exists and the target was not copied yet. -/
def sharedOwnDepStep (srcPath targetDir : String) (fsExists : String → Bool)
    (acc : List String) (importPath : String) : List String :=
  if strContains importPath "@types" || strEndsWith importPath "@types" then
    let typesDir := pathJoin srcPath "@types"
    if fsExists typesDir then
      let targetTypesDir := pathJoin (pathJoin targetDir "shared") "@types"
      if fsExists targetTypesDir || acc.contains targetTypesDir then acc
      else acc ++ [targetTypesDir]
    else acc
  else acc

/-- `downloadSharedFileOwnDependencies` (lines 413-437), as the list of
extra directories it copies.  `sharedFileImports` is the import list
extracted from the just-copied shared file.  Only an import mentioning
`@types` triggers a copy (of `srcPath/@types` to `targetDir/shared/@types`,
at most once); the accumulator stands in for the target existing after
the first copy. -/
def downloadSharedFileOwnDependencies (sharedFileImports : List String)
    (srcPath targetDir : String) (fsExists : String → Bool) : List String :=
  sharedFileImports.foldl (sharedOwnDepStep srcPath targetDir fsExists) []

/-! ## Import Path Rewriter (git-service.ts lines 439-614) -/

/-- `importMatchesSharedFile` (lines 565-614): does `importPath`, resolved
from the directory of `currentFilePath`, denote `sharedFilePath`? -/
def importMatchesSharedFile (importPath sharedFilePath currentFilePath : String) : Bool :=
  let currentFileDir := pathDirname currentFilePath
  let resolvedImportPath := pathResolve currentFileDir importPath
  if pathExtname importPath = "" then
    let extensions := [".tsx", ".ts", ".jsx", ".js", ".d.ts"]
    (extensions.any (fun ext => resolvedImportPath ++ ext == sharedFilePath))
      || (extensions.any (fun ext =>
            pathJoin resolvedImportPath ("index" ++ ext) == sharedFilePath))
      || (resolvedImportPath == pathDirname sharedFilePath
            && strStartsWith (pathBasename sharedFilePath) "index.")
  else resolvedImportPath == sharedFilePath

/-- The walk-up loop in `calculateNewImportPath` (lines 530-533) locating
the enclosing `src` directory of a shared file. -/
def findSrcBaseGo : Nat → String → String
  | 0, p => p
  | n + 1, p =>
    if pathBasename p == "src" then p
    else if pathDirname p == p then p
    else findSrcBaseGo n (pathDirname p)

/-- `while (path.basename(srcBasePath) !== 'src' && ...)` walk-up. -/
def findSrcBase (p : String) : String := findSrcBaseGo (splitSegs p).length p

/-- `calculateNewImportPath` (lines 488-563): the new import specifier for
`originalImportPath` in the copied file `currentFilePath`, or `none` when
the import is left unchanged. -/
def calculateNewImportPath (originalImportPath currentFilePath targetDir : String)
    (dependencies : DependencySet) (srcPath : String) : Option String :=
  let currentFileDir := pathDirname currentFilePath
  match dependencies.components.find? (fun componentDep =>
      strContains originalImportPath (pathBasename componentDep)
        || strContains originalImportPath componentDep) with
  | some componentDep =>
    let componentBaseName := pathBasename componentDep
    let componentDir := pathJoin targetDir componentBaseName
    let relativeToComponent := pathRelative currentFileDir componentDir
    some (relativeToComponent ++ "/" ++ componentBaseName)
  | none =>
    if strContains originalImportPath "@types" || strEndsWith originalImportPath "@types" then
      some (pathRelative currentFileDir (pathJoin (pathJoin targetDir "shared") "@types"))
    else if strContains originalImportPath "common/Utils"
        || strEndsWith originalImportPath "/Utils" then
      some (pathRelative currentFileDir (pathJoin (pathJoin targetDir "shared") "Utils"))
    else
      match dependencies.sharedFiles.find? (fun sharedFilePath =>
          importMatchesSharedFile originalImportPath sharedFilePath currentFilePath) with
      | some sharedFilePath =>
        let srcBasePath := findSrcBase sharedFilePath
        let relativePath := pathRelative srcBasePath sharedFilePath
        let simplifiedPath := sharedSimplifiedPath relativePath
        let sharedDir := pathJoin targetDir "shared"
        let relativeToShared := pathRelative currentFileDir sharedDir
        let finalPath := relativeToShared ++ "/" ++ simplifiedPath
        let finalPath :=
          if pathExtname originalImportPath = "" && pathExtname finalPath ≠ "" then
            replaceFirst finalPath (pathExtname finalPath) ""
          else finalPath
        some finalPath
      | none => none

/-- The per-import effect of `fixImportPaths` (lines 455-481) on a
file's import list: each extracted import whose computed new path differs is
substituted (the regex substitution of the literal inside the file's
text is abstracted to the list of the file's import specifiers). -/
def fixImportsList (imports : List String) (currentFilePath targetDir : String)
    (dependencies : DependencySet) (srcPath : String) : List String :=
  imports.map (fun importPath =>
    match calculateNewImportPath importPath currentFilePath targetDir dependencies srcPath with
    | some newImportPath => if newImportPath != importPath then newImportPath else importPath
    | none => importPath)

/-! ## Component suggestions (src/commands/download.ts lines 573-609) -/

/-- ASCII lowercase of one character (JS `toLowerCase` restricted to the
ASCII names this tool works with). -/
def lowerChar (c : Char) : Char :=
  if 65 ≤ c.toNat ∧ c.toNat ≤ 90 then Char.ofNat (c.toNat + 32) else c

/-- JS `s.toLowerCase()` (ASCII). -/
def strToLower (s : String) : String := String.mk (s.toList.map lowerChar)

/-- One inner step of the Levenshtein matrix row computation: walking the
columns with the previous row (`up` above, `diag` upper-left, `left` the
value just written). -/
def levGo (x : Char) : List Char → List Nat → Nat → Nat → List Nat
  | [], _, _, _ => []
  | y :: ys, prevTail, diag, left =>
    match prevTail with
    | [] => []
    | up :: rest =>
      let cost := if x == y then 0 else 1
      let v := min (min (up + 1) (left + 1)) (diag + cost)
      v :: levGo x ys rest up v

/-- Row `i` of the matrix from row `i-1` (`matrix[i][0] = i`). -/
def levRow (x : Char) (bs : List Char) (prev : List Nat) (i : Nat) : List Nat :=
  i :: levGo x bs (prev.drop 1) (prev.headD 0) i

/-- `levenshtein` (download.ts lines 592-609; named `levenshteinDist` here
because Mathlib already declares `levenshtein`): the dynamic-programming
matrix, row by row; the answer is `matrix[a.length][b.length]`. -/
def levenshteinDist (a b : String) : Nat :=
  let bs := b.toList
  let finalRow := a.toList.foldl
    (fun (st : List Nat × Nat) x => (levRow x bs st.1 (st.2 + 1), st.2 + 1))
    (List.range (bs.length + 1), 0)
  finalRow.1.getLastD 0

/-- Stable insertion (ties keep the earlier element first), matching the
stable JS `Array.prototype.sort` with comparator `a.dist - b.dist`. -/
def insertByDist (x : String × Nat) : List (String × Nat) → List (String × Nat)
  | [] => [x]
  | y :: ys => if y.2 ≤ x.2 then y :: insertByDist x ys else x :: y :: ys

/-- Stable ascending sort by distance. -/
def sortByDist : List (String × Nat) → List (String × Nat)
  | [] => []
  | x :: xs => insertByDist x (sortByDist xs)

/-- `getComponentSuggestions` (download.ts lines 573-589): case-insensitive
substring matches first; otherwise all names ranked by ascending
Levenshtein distance; capped at 10. -/
def getComponentSuggestions (names : List String) (query : String) : List String :=
  let lowerQuery := strToLower query
  let substringMatches := names.filter (fun n => strContains (strToLower n) lowerQuery)
  if 0 < substringMatches.length then substringMatches.take 10
  else
    let ranked := ((sortByDist (names.map (fun n => (n, levenshteinDist (strToLower n) lowerQuery)))).take 10).map
      (fun r => r.1)
    ranked

/-! ## Download/Assembly Orchestrator (git-service.ts lines 173-283) -/

/-- The not-found error message built in `downloadComponentWithDependencies`
(lines 211-232): names similar to the query (substring either way,
case-insensitive) if any, otherwise up to 10 available names. -/
def notFoundMessage (name : String) (availableComponents : List String) : String :=
  let similarComponents := availableComponents.filter (fun comp =>
    strContains (strToLower comp) (strToLower name) || strContains (strToLower name) (strToLower comp))
  let base := "Component \"" ++ name ++ "\" not found"
  if 0 < similarComponents.length then
    base ++ "\n\nDid you mean one of these?\n  " ++ joinWith "\n  " similarComponents
  else if 0 < availableComponents.length then
    let msg := base ++ "\n\nAvailable components:\n  "
      ++ joinWith "\n  " (availableComponents.take 10)
    if 10 < availableComponents.length then
      msg ++ "\n  ... and " ++ toString (availableComponents.length - 10) ++ " more"
    else msg
  else base

/-- The repository checkout as seen by the orchestrator: the discovered
component index (`findAllComponents`, constant within one invocation),
the extracted relative imports of the code files in each directory, and
the filesystem existence predicate. -/
structure Repo where
  comps : List Comp
  importsOf : String → List String
  fsExists : String → Bool

/-- The orchestrator's observable state: the `downloadedComponents` set
(insertion order kept), the trace of components that entered processing
(passed the duplicate guard and the index lookup), the component copy
targets and the shared-file copy targets. -/
structure DlState where
  downloaded : List String
  processed : List String
  copies : List String
  sharedCopies : List String
deriving DecidableEq, Repr

/-- Outcome marker: success, a thrown error, or out of fuel (the modeled
recursion did not finish within the given depth budget). -/
inductive DlStatus where
  | ok : DlStatus
  | err : String → DlStatus
  | spin : DlStatus
deriving DecidableEq, Repr

/-- State plus outcome. -/
structure DlOut where
  st : DlState
  status : DlStatus
deriving DecidableEq, Repr

/-- The sequential `for (const dep of allDependencies.components)` loop
(lines 253-255): recurse on each dependency, stopping at the first
non-success. -/
def runDeps (f : String → DlState → DlOut) : List String → DlState → DlOut
  | [], st => ⟨st, DlStatus.ok⟩
  | dep :: rest, st =>
    match f dep st with
    | ⟨st2, DlStatus.ok⟩ => runDeps f rest st2
    | out => out

/-- `downloadComponentWithDependencies` (lines 195-283), fuel-indexed.
Faithful order of effects: duplicate guard; index lookup (throw with
`notFoundMessage` when absent); dependency analysis; recursion into the
component dependencies; shared-file copies (with their own one-level
`@types` expansion); copy of the component to `targetDir/<basename>`;
and only then `downloadedComponents.add(name)` (line 280). -/
def downloadWithDeps (repo : Repo) (repoPath targetDir : String) :
    Nat → String → DlState → DlOut
  | 0 => fun _ st => ⟨st, DlStatus.spin⟩
  | fuel + 1 => fun name st =>
    if st.downloaded.contains name then ⟨st, DlStatus.ok⟩
    else
      match repo.comps.find? (fun comp => comp.name == name) with
      | none => ⟨st, DlStatus.err (notFoundMessage name (repo.comps.map Comp.name))⟩
      | some component =>
        let st1 : DlState := { st with processed := st.processed ++ [name] }
        let srcPath := pathJoin repoPath "src"
        let deps := findAllDependencies (repo.importsOf component.path) component.path
          srcPath repo.comps repo.fsExists
        match runDeps (downloadWithDeps repo repoPath targetDir fuel) deps.components st1 with
        | ⟨st2, DlStatus.ok⟩ =>
          let st3 : DlState := { st2 with
            sharedCopies := st2.sharedCopies
              ++ deps.sharedFiles.map (fun sf => downloadSharedFileTarget sf srcPath targetDir)
              ++ (deps.sharedFiles.map (fun sf =>
                    downloadSharedFileOwnDependencies (repo.importsOf sf) srcPath targetDir
                      repo.fsExists)).flatten }
          let componentBaseName := pathBasename component.name
          let targetPath := pathJoin targetDir componentBaseName
          ⟨{ st3 with
              copies := st3.copies ++ [targetPath],
              downloaded := st3.downloaded ++ [name] }, DlStatus.ok⟩
        | out => out

/-- The empty state at the start of one top-level `downloadComponent`
call (line 182: `const downloadedComponents = new Set()`). -/
def initSt : DlState := ⟨[], [], [], []⟩

/-! ## Concrete instances used by the claims -/

/-- A checkout with two components `A` and `B` whose main files import one
another (`A → B → A`), nothing else on disk. -/
def repoAB : Repo where
  comps := [⟨"A", "/r/src/components/A"⟩, ⟨"B", "/r/src/components/B"⟩]
  importsOf := fun p =>
    if p = "/r/src/components/A" then ["../B/B"]
    else if p = "/r/src/components/B" then ["../A/A"] else []
  fsExists := fun _ => false

/-- A checkout whose index holds only the component `Alert`. -/
def repoAlert : Repo where
  comps := [⟨"Alert", "/r/src/components/Alert"⟩]
  importsOf := fun _ => []
  fsExists := fun _ => false

/-- An index with a component `Form` and a nested child component
`Form/Inputs`. -/
def compsNested : List Comp :=
  [⟨"Form", "/repo/src/components/Form"⟩, ⟨"Form/Inputs", "/repo/src/components/Form/Inputs"⟩]

/-- A filesystem on which `/repo/src/helpers.ts` and
`/repo/src/common/format.ts` are genuine shared files and a shared
`@types` directory exists. -/
def fsShared : String → Bool := fun p =>
  p = "/repo/src/helpers.ts" || p = "/repo/src/common/format.ts" || p = "/repo/src/@types"

/-! ## Infrastructure lemmas -/

theorem insertByDist_length (x : String × Nat) (l : List (String × Nat)) :
    (insertByDist x l).length = l.length + 1 := by
  induction l with
  | nil => rfl
  | cons y ys ih => simp only [insertByDist]; split <;> simp [ih]

theorem sortByDist_length (l : List (String × Nat)) : (sortByDist l).length = l.length := by
  induction l with
  | nil => rfl
  | cons x xs ih => simp [sortByDist, insertByDist_length, ih]

theorem addShared_components (acc : DependencySet) (a b c : String) (fs : String → Bool) :
    (addShared acc a b c fs).components = acc.components := by
  simp only [addShared]
  split
  · split <;> rfl
  · rfl

theorem shortenLoop_ne_current (dirParts : List String) (comps : List Comp)
    (curName : String) : ∀ n r, shortenLoop dirParts comps curName n = some r → r ≠ curName := by
  intro n
  induction n with
  | zero => intro r h; cases h
  | succ i ih =>
    intro r h
    simp only [shortenLoop] at h
    split at h
    · split at h
      · rename_i hcond
        cases h
        simpa using hcond
      · exact ih r h
    · exact ih r h

theorem resolveFrom_ne_self (resolvedPath base : String) (comps : List Comp)
    (current : Comp) (hmem : current ∈ comps)
    (huniq : ∀ c ∈ comps, c.name = current.name → c = current)
    (hrel : pathRelative base current.path = current.name) :
    resolveComponentDependencyFrom resolvedPath current.path base comps ≠ some current.name := by
  intro h
  simp only [resolveComponentDependencyFrom] at h
  split at h
  · cases h
  · split at h
    · rename_i c hfind
      have hpred := List.find?_some hfind
      have hcmem := List.mem_of_find?_eq_some hfind
      simp only [Bool.and_eq_true, bne_iff_ne] at hpred
      injection h with hnameEq
      exact hpred.2 (congrArg Comp.path (huniq c hcmem hnameEq))
    · rw [hrel] at h
      exact shortenLoop_ne_current _ comps current.name _ current.name h rfl

theorem resolveComponentDependency_ne_self (imp base : String) (comps : List Comp)
    (current : Comp) (hmem : current ∈ comps)
    (huniq : ∀ c ∈ comps, c.name = current.name → c = current)
    (hrel : pathRelative base current.path = current.name) :
    resolveComponentDependency imp current.path base comps ≠ some current.name := by
  simp only [resolveComponentDependency]
  exact resolveFrom_ne_self _ base comps current hmem huniq hrel

/-- C7 helper: the import fold of `findAllDependencies` preserves absence
of the current component's own name in `components`. -/
theorem foldl_analyzeImport_no_self (srcPath : String) (comps : List Comp) (fs : String → Bool)
    (current : Comp) (hmem : current ∈ comps)
    (huniq : ∀ c ∈ comps, c.name = current.name → c = current)
    (hrel : pathRelative (pathJoin srcPath "components") current.path = current.name) :
    ∀ (l : List String) (acc : DependencySet), current.name ∉ acc.components →
      current.name ∉ (l.foldl (analyzeImport current.path srcPath comps fs) acc).components := by
  intro l
  induction l with
  | nil => intro acc hacc; exact hacc
  | cons imp rest ih =>
    intro acc hacc
    rw [List.foldl_cons]
    apply ih
    simp only [analyzeImport]
    split
    · rename_i dep hres
      have hne : dep ≠ current.name := by
        intro hEq
        exact resolveComponentDependency_ne_self imp (pathJoin srcPath "components") comps current
          hmem huniq hrel (hEq ▸ hres)
      split
      · rw [addShared_components]; exact hacc
      · intro hmem2
        rcases List.mem_append.mp hmem2 with h1 | h2
        · exact hacc h1
        · have h3 : current.name = dep := by simpa using h2
          exact hne h3.symm
    · rw [addShared_components]; exact hacc

/-! ## Orchestrator evaluation helpers for the cyclic checkout -/

theorem repoAB_findA : repoAB.comps.find? (fun comp => comp.name == "A")
    = some ⟨"A", "/r/src/components/A"⟩ := by rfl

theorem repoAB_findB : repoAB.comps.find? (fun comp => comp.name == "B")
    = some ⟨"B", "/r/src/components/B"⟩ := by rfl

theorem repoAB_depsA : findAllDependencies (repoAB.importsOf "/r/src/components/A")
    "/r/src/components/A" (pathJoin "/r" "src") repoAB.comps repoAB.fsExists = ⟨["B"], []⟩ := by
  decide

theorem repoAB_depsB : findAllDependencies (repoAB.importsOf "/r/src/components/B")
    "/r/src/components/B" (pathJoin "/r" "src") repoAB.comps repoAB.fsExists = ⟨["A"], []⟩ := by
  decide

/-- On the cyclic checkout the recursion never returns: with the set
extension happening only after the recursive calls, neither name ever
enters `downloaded`, so every fuel bound is exhausted. -/
theorem cycle_aux : ∀ fuel (st : DlState), st.downloaded.contains "A" = false →
    st.downloaded.contains "B" = false →
    (downloadWithDeps repoAB "/r" "/out" fuel "A" st).status = DlStatus.spin ∧
    (downloadWithDeps repoAB "/r" "/out" fuel "B" st).status = DlStatus.spin := by
  intro fuel
  induction fuel with
  | zero => intro st _ _; exact ⟨rfl, rfl⟩
  | succ fuel ih =>
    intro st hA hB
    constructor
    · rcases hrun : downloadWithDeps repoAB "/r" "/out" fuel "B"
        { st with processed := st.processed ++ ["A"] } with ⟨stB, stsB⟩
      have hspin : stsB = DlStatus.spin := by
        have h2 := (ih { st with processed := st.processed ++ ["A"] } hA hB).2
        rw [hrun] at h2
        exact h2
      subst hspin
      simp only [downloadWithDeps, hA, repoAB_findA, repoAB_depsA, runDeps, hrun]
      simp
    · rcases hrun : downloadWithDeps repoAB "/r" "/out" fuel "A"
        { st with processed := st.processed ++ ["B"] } with ⟨stA, stsA⟩
      have hspin : stsA = DlStatus.spin := by
        have h2 := (ih { st with processed := st.processed ++ ["B"] } hA hB).1
        rw [hrun] at h2
        exact h2
      subst hspin
      simp only [downloadWithDeps, hB, repoAB_findB, repoAB_depsB, runDeps, hrun]
      simp

/-- C1: on a checkout where components A and B have a mutual local-import
dependency, `downloadComponent("A", ...)` does not terminate: the
recursive download exhausts every fuel bound (the spec's claimed
termination with exactly one output directory per component fails; the
`downloadedComponents` guard is updated only after the recursion, so the
A to B to A recursion never stops). -/
theorem downloadWithDeps_mutual_cycle_spins (fuel : Nat) :
    (downloadWithDeps repoAB "/r" "/out" fuel "A" initSt).status = DlStatus.spin :=
  (cycle_aux fuel initSt rfl rfl).1

/-- C2: the recursive step of `downloadComponentWithDependencies` adds the
current name to the DownloadedSet only after recursing into the
dependencies (git-service.ts line 280), not before: on the mutual cycle
A to B to A the trace of components entering processing within one
invocation contains A (and B) twice while the DownloadedSet stays empty,
refuting at-most-once processing. -/
theorem downloadWithDeps_processes_twice :
    (downloadWithDeps repoAB "/r" "/out" 4 "A" initSt).st.processed = ["A", "B", "A", "B"]
    ∧ (downloadWithDeps repoAB "/r" "/out" 4 "A" initSt).st.downloaded = [] := by
  constructor <;> decide

/-- C5: the shared-path flattening rule of `downloadSharedFile`: the
source-relative path `common/Utils/format.ts` is copied to
`<outputDir>/shared/Utils/format.ts` and `common/helpers.ts` to
`<outputDir>/shared/helpers.ts`. -/
theorem downloadSharedFileTarget_flattening :
    downloadSharedFileTarget "/repo/src/common/Utils/format.ts" "/repo/src" "/out"
      = "/out/shared/Utils/format.ts"
    ∧ downloadSharedFileTarget "/repo/src/common/helpers.ts" "/repo/src" "/out"
      = "/out/shared/helpers.ts" := by
  constructor <;> decide

/-- C6: for component `Form/Inputs/Select` importing
`../../Buttons/Button/Button` with known component `Buttons/Button`, the
rewriter turns the import into the relative path from `outputDir/Select`
to `outputDir/Button` followed by `/Button`, i.e. `../Button/Button`. -/
theorem calculateNewImportPath_rewrite_example :
    calculateNewImportPath "../../Buttons/Button/Button" "/out/Select/Select.tsx" "/out"
      ⟨["Buttons/Button"], []⟩ "/repo/src" = some "../Button/Button"
    ∧ fixImportsList ["../../Buttons/Button/Button"] "/out/Select/Select.tsx" "/out"
      ⟨["Buttons/Button"], []⟩ "/repo/src" = ["../Button/Button"]
    ∧ pathRelative "/out/Select" "/out/Button" ++ "/Button" = "../Button/Button" := by
  refine ⟨?_, ?_, ?_⟩ <;> decide

/-- C7: a component never appears in its own DependencySet.components: for
a well-formed index (the current component is in the index, names are
unique, and its path sits under the components root at its name),
no import list can make `findAllDependencies` report the component's own
name. -/
theorem findAllDependencies_no_self
    (imports : List String) (srcPath : String) (comps : List Comp) (fs : String → Bool)
    (current : Comp) (hmem : current ∈ comps)
    (huniq : ∀ c ∈ comps, c.name = current.name → c = current)
    (hrel : pathRelative (pathJoin srcPath "components") current.path = current.name) :
    current.name ∉ (findAllDependencies imports current.path srcPath comps fs).components := by
  simp only [findAllDependencies]
  exact foldl_analyzeImport_no_self srcPath comps fs current hmem huniq hrel imports ⟨[], []⟩
    (by simp)

/-- C7 witness at a concrete component importing from its own directory. -/
theorem findAllDependencies_no_self_witness :
    "Alert" ∉ (findAllDependencies ["./styles"] "/r/src/components/Alert" "/r/src"
      [⟨"Alert", "/r/src/components/Alert"⟩] (fun _ => false)).components :=
  findAllDependencies_no_self ["./styles"] "/r/src" [⟨"Alert", "/r/src/components/Alert"⟩]
    (fun _ => false) ⟨"Alert", "/r/src/components/Alert"⟩ (by decide) (by decide) (by decide)

/-- C8: with an index holding only `Alert`, requesting `Alret` fails with
the not-found error and `getComponentSuggestions` returns exactly
`["Alert"]`. -/
theorem missing_component_single_suggestion :
    (downloadWithDeps repoAlert "/r" "/out" 1 "Alret" initSt).status
      = DlStatus.err (notFoundMessage "Alret" ["Alert"])
    ∧ getComponentSuggestions ["Alert"] "Alret" = ["Alert"] := by
  constructor <;> decide

/-- C3 counterexample: the same-directory import `./Inputs/TextField` of
component `Form` is classified as a cross-component dependency on the
nested child component `Form/Inputs` and contributes it to
`DependencySet.components`, refuting that only `../` imports can. -/
theorem dotSlash_import_yields_component_dep :
    strStartsWith "./Inputs/TextField" "./" = true
    ∧ resolveComponentDependency "./Inputs/TextField" "/repo/src/components/Form"
        "/repo/src/components" compsNested = some "Form/Inputs"
    ∧ (findAllDependencies ["./Inputs/TextField"] "/repo/src/components/Form" "/repo/src"
        compsNested (fun _ => false)).components = ["Form/Inputs"] := by
  refine ⟨?_, ?_, ?_⟩ <;> decide

/-- C9 counterexample: a shared file importing another genuine shared file
(`../helpers`, which the analyzer itself would classify as a shared
dependency) triggers no copy in the one-level re-scan — only the
`@types` imports do. -/
theorem sharedOwnDeps_skips_non_types :
    resolveSharedFileDependency "../helpers" "/repo/src/common" "/repo/src" fsShared
      = some "/repo/src/helpers.ts"
    ∧ downloadSharedFileOwnDependencies ["../helpers"] "/repo/src" "/out" fsShared = [] := by
  constructor <;> decide

/-- C10: component-dependency classification is purely path-syntactic
while shared-file classification needs the file to exist: on an empty
filesystem `resolveSharedFileDependency` is always `none`; an
extensionless import is classified from the bare resolved path with
`.tsx` appended unconditionally; and on an empty filesystem an import
resolving under another component's directory is still classified as a
component dependency. -/
theorem classification_pure_shared_needs_fs :
    (∀ (imp cur src : String) (fs : String → Bool), (∀ p, fs p = false) →
        resolveSharedFileDependency imp cur src fs = none)
    ∧ (∀ (imp cur base : String) (comps : List Comp), pathExtname imp = "" →
        resolveComponentDependency imp cur base comps
          = resolveComponentDependencyFrom (pathResolve cur imp ++ ".tsx") cur base comps)
    ∧ (findAllDependencies ["../Button/Button"] "/repo/src/components/Alert" "/repo/src"
        [⟨"Alert", "/repo/src/components/Alert"⟩, ⟨"Button", "/repo/src/components/Button"⟩]
        (fun _ => false)) = ⟨["Button"], []⟩ := by
  refine ⟨?_, ?_, ?_⟩
  · intro imp cur src fs hfs
    simp only [resolveSharedFileDependency]
    split
    all_goals
      split
      · rename_i hguard
        simp [hfs] at hguard
      · rfl
  · intro imp cur base comps hext
    simp [resolveComponentDependency, hext]
  · decide

/-- C10 witness. -/
theorem classification_pure_shared_needs_fs_witness :
    resolveSharedFileDependency "../x" "/a/b" "/a" (fun _ => false) = none
    ∧ resolveComponentDependency "../Button" "/c/Alert" "/c" [] 
      = resolveComponentDependencyFrom (pathResolve "/c/Alert" "../Button" ++ ".tsx")
          "/c/Alert" "/c" [] := by
  constructor
  · exact classification_pure_shared_needs_fs.1 "../x" "/a/b" "/a" (fun _ => false) (fun _ => rfl)
  · exact classification_pure_shared_needs_fs.2.1 "../Button" "/c/Alert" "/c" [] (by decide)

/-- C4: requesting a name absent from the index fails with the not-found
error, and `getComponentSuggestions` — a pure function, hence
deterministic — returns at most 10 entries, prefers the case-insensitive
substring matches when any exist, and is non-empty whenever some name
shares a substring with the query. -/
theorem notFound_and_suggestion_bounds :
    (∀ (repo : Repo) (repoPath targetDir : String) (fuel : Nat) (name : String) (st : DlState),
        name ∉ repo.comps.map Comp.name → st.downloaded.contains name = false →
        downloadWithDeps repo repoPath targetDir (fuel + 1) name st
          = ⟨st, DlStatus.err (notFoundMessage name (repo.comps.map Comp.name))⟩)
    ∧ (∀ (names : List String) (query : String),
        (getComponentSuggestions names query).length ≤ 10)
    ∧ (∀ (names : List String) (query : String),
        (∃ n ∈ names, strContains (strToLower n) (strToLower query) = true) →
        getComponentSuggestions names query
          = (names.filter (fun n => strContains (strToLower n) (strToLower query))).take 10
        ∧ getComponentSuggestions names query ≠ [])
    ∧ (∀ (names : List String) (query : String), names ≠ [] →
        getComponentSuggestions names query ≠ []) := by
  refine ⟨?_, ?_, ?_, ?_⟩
  · intro repo repoPath targetDir fuel name st hname hguard
    have hfind : repo.comps.find? (fun comp => comp.name == name) = none := by
      rw [List.find?_eq_none]
      intro c hc hbeq
      exact hname (List.mem_map.mpr ⟨c, hc, by simpa using hbeq⟩)
    simp only [downloadWithDeps, hguard, hfind]
    simp
  · intro names query
    simp only [getComponentSuggestions]
    split
    · rw [List.length_take]
      exact min_le_left _ _
    · rw [List.length_map, List.length_take]
      exact min_le_left _ _
  · intro names query hex
    obtain ⟨n, hn, hmatch⟩ := hex
    have hmem : n ∈ names.filter (fun n => strContains (strToLower n) (strToLower query)) :=
      List.mem_filter.mpr ⟨hn, hmatch⟩
    have hpos : 0 < (names.filter (fun n => strContains (strToLower n) (strToLower query))).length :=
      List.length_pos.mpr (List.ne_nil_of_mem hmem)
    constructor
    · simp only [getComponentSuggestions]
      rw [if_pos hpos]
    · simp only [getComponentSuggestions]
      rw [if_pos hpos]
      intro hnil
      rcases List.take_eq_nil_iff.mp hnil with h10 | hfil
      · cases h10
      · rw [hfil] at hmem
        cases hmem
  · intro names query hne
    simp only [getComponentSuggestions]
    split
    · rename_i hpos
      intro hnil
      rcases List.take_eq_nil_iff.mp hnil with h10 | hfil
      · cases h10
      · rw [hfil] at hpos
        simp at hpos
    · intro hnil
      have hlen := congrArg List.length hnil
      simp only [List.length_map, List.length_take, sortByDist_length,
        List.length_nil] at hlen
      have hp : 0 < names.length := List.length_pos.mpr hne
      omega

/-- C4 witness. -/
theorem notFound_and_suggestion_bounds_witness :
    downloadWithDeps repoAlert "/r" "/out" 1 "Missing" initSt
      = ⟨initSt, DlStatus.err (notFoundMessage "Missing" (repoAlert.comps.map Comp.name))⟩
    ∧ (getComponentSuggestions ["Alert"] "ler").length ≤ 10
    ∧ getComponentSuggestions ["Alert"] "ler" ≠ [] := by
  refine ⟨?_, ?_, ?_⟩
  · exact notFound_and_suggestion_bounds.1 repoAlert "/r" "/out" 0 "Missing" initSt (by decide) rfl
  · exact notFound_and_suggestion_bounds.2.1 ["Alert"] "ler"
  · exact (notFound_and_suggestion_bounds.2.2.1 ["Alert"] "ler" ⟨"Alert", by decide, by decide⟩).2

/-! ## One-level @types expansion lemmas (C9) -/

theorem sharedOwnStep_of_target (s t : String) (fs : String → Bool) (imp : String) :
    sharedOwnDepStep s t fs [pathJoin (pathJoin t "shared") "@types"] imp
      = [pathJoin (pathJoin t "shared") "@types"] := by
  simp only [sharedOwnDepStep]
  split
  · split
    · rw [if_pos (by simp)]
    · rfl
  · rfl

theorem sharedOwnFold_fixed (s t : String) (fs : String → Bool) :
    ∀ l : List String, l.foldl (sharedOwnDepStep s t fs) [pathJoin (pathJoin t "shared") "@types"]
      = [pathJoin (pathJoin t "shared") "@types"] := by
  intro l
  induction l with
  | nil => rfl
  | cons imp rest ih => rw [List.foldl_cons, sharedOwnStep_of_target]; exact ih

theorem sharedOwnFold_cases (s t : String) (fs : String → Bool) :
    ∀ l : List String, l.foldl (sharedOwnDepStep s t fs) [] = []
      ∨ l.foldl (sharedOwnDepStep s t fs) [] = [pathJoin (pathJoin t "shared") "@types"] := by
  intro l
  induction l with
  | nil => left; rfl
  | cons imp rest ih =>
    rw [List.foldl_cons]
    have hstep : sharedOwnDepStep s t fs [] imp = []
        ∨ sharedOwnDepStep s t fs [] imp = [pathJoin (pathJoin t "shared") "@types"] := by
      simp only [sharedOwnDepStep]
      split
      · split
        · split
          · left; rfl
          · right; simp
        · left; rfl
      · left; rfl
    rcases hstep with h | h
    · rw [h]; exact ih
    · rw [h, sharedOwnFold_fixed]
      right; rfl

theorem sharedOwnFold_hit (s t : String) (fs : String → Bool)
    (hsrc : fs (pathJoin s "@types") = true)
    (htgt : fs (pathJoin (pathJoin t "shared") "@types") = false) :
    ∀ l : List String, (∃ imp ∈ l, (strContains imp "@types" || strEndsWith imp "@types") = true) →
      l.foldl (sharedOwnDepStep s t fs) [] = [pathJoin (pathJoin t "shared") "@types"] := by
  intro l
  induction l with
  | nil =>
    intro h
    obtain ⟨imp, h0, _⟩ := h
    cases h0
  | cons imp rest ih =>
    intro h
    rw [List.foldl_cons]
    by_cases hc : (strContains imp "@types" || strEndsWith imp "@types") = true
    · have hstep : sharedOwnDepStep s t fs [] imp = [pathJoin (pathJoin t "shared") "@types"] := by
        simp only [sharedOwnDepStep]
        rw [if_pos hc, if_pos hsrc]
        simp [htgt]
      rw [hstep, sharedOwnFold_fixed]
    · have hstep : sharedOwnDepStep s t fs [] imp = [] := by
        simp only [sharedOwnDepStep]
        rw [if_neg hc]
      rw [hstep]
      apply ih
      obtain ⟨i, hi, hci⟩ := h
      rcases List.mem_cons.mp hi with heq | hin
      · subst heq
        exact absurd hci hc
      · exact ⟨i, hin, hci⟩

/-- C9 amended: after a shared file is copied, its imports are re-scanned
once (one level, no transitive closure), but the only further dependency
this scan ever copies is the shared `@types` directory: every copy target
equals `targetDir/shared/@types`, at most one copy happens, and exactly
one happens when some import mentions `@types`, the source `@types`
directory exists and the target does not. Other shared-file imports of a
shared file are not copied. -/
theorem sharedOwnDeps_types_only (imports : List String) (srcPath targetDir : String)
    (fs : String → Bool) :
    (∀ p ∈ downloadSharedFileOwnDependencies imports srcPath targetDir fs,
        p = pathJoin (pathJoin targetDir "shared") "@types")
    ∧ (downloadSharedFileOwnDependencies imports srcPath targetDir fs).length ≤ 1
    ∧ ((∃ imp ∈ imports, (strContains imp "@types" || strEndsWith imp "@types") = true) →
        fs (pathJoin srcPath "@types") = true →
        fs (pathJoin (pathJoin targetDir "shared") "@types") = false →
        downloadSharedFileOwnDependencies imports srcPath targetDir fs
          = [pathJoin (pathJoin targetDir "shared") "@types"]) := by
  refine ⟨?_, ?_, ?_⟩
  · intro p hp
    simp only [downloadSharedFileOwnDependencies] at hp
    rcases sharedOwnFold_cases srcPath targetDir fs imports with h | h <;> rw [h] at hp
    · cases hp
    · simpa using hp
  · simp only [downloadSharedFileOwnDependencies]
    rcases sharedOwnFold_cases srcPath targetDir fs imports with h | h <;> rw [h] <;> simp
  · intro hex hsrc htgt
    simp only [downloadSharedFileOwnDependencies]
    exact sharedOwnFold_hit srcPath targetDir fs hsrc htgt imports hex

/-- C9 amended witness. -/
theorem sharedOwnDeps_types_only_witness :
    downloadSharedFileOwnDependencies ["../../@types"] "/repo/src" "/out" fsShared
      = [pathJoin (pathJoin "/out" "shared") "@types"] :=
  (sharedOwnDeps_types_only ["../../@types"] "/repo/src" "/out" fsShared).2.2
    ⟨"../../@types", by decide, by decide⟩ (by decide) (by decide)

/-! ## Path model lemmas (for the C3 analysis) -/

theorem toList_append (a b : String) : (a ++ b).toList = a.toList ++ b.toList := by
  cases a; cases b; rfl

theorem mk_toList (s : String) : String.mk s.toList = s := by cases s; rfl

theorem listStarts_iff (p : List Char) : ∀ s, listStarts p s = true ↔ p <+: s := by
  induction p with
  | nil =>
    intro s
    constructor
    · intro _; exact List.nil_prefix
    · intro _; rfl
  | cons a as ih =>
    intro s
    cases s with
    | nil =>
      constructor
      · intro h; cases h
      · rintro ⟨t, ht⟩; cases ht
    | cons b bs =>
      constructor
      · intro h
        simp only [listStarts, Bool.and_eq_true, beq_iff_eq] at h
        obtain ⟨rfl, h2⟩ := h
        obtain ⟨t, rfl⟩ := (ih bs).mp h2
        exact ⟨t, rfl⟩
      · rintro ⟨t, ht⟩
        injection ht with h1 h2
        subst h1
        simp only [listStarts, Bool.and_eq_true]
        exact ⟨by simp, (ih bs).mpr ⟨t, h2⟩⟩

theorem strStartsWith_iff (s p : String) : strStartsWith s p = true ↔ p.toList <+: s.toList :=
  listStarts_iff p.toList s.toList

theorem strStartsWith_two (a b : String) : strStartsWith (a ++ b) a = true := by
  rw [strStartsWith_iff, toList_append]
  exact List.prefix_append _ _

theorem strPrefixTotal (s p q : String) (hp : strStartsWith s p = true)
    (hq : strStartsWith s q = true) :
    strStartsWith p q = true ∨ strStartsWith q p = true := by
  rw [strStartsWith_iff] at hp hq
  simp only [strStartsWith_iff]
  rcases le_total q.toList.length p.toList.length with h | h
  · left; exact List.prefix_of_prefix_length_le hq hp h
  · right; exact List.prefix_of_prefix_length_le hp hq h

theorem joinSegs_cons_ne (s : String) (l : List String) (h : l ≠ []) :
    joinSegs (s :: l) = s ++ "/" ++ joinSegs l := by
  cases l with
  | nil => cases h rfl
  | cons t ts => rfl

theorem joinSegs_append (l m : List String) (hl : l ≠ []) (hm : m ≠ []) :
    joinSegs (l ++ m) = joinSegs l ++ "/" ++ joinSegs m := by
  induction l with
  | nil => cases hl rfl
  | cons s ts ih =>
    cases ts with
    | nil => simpa using joinSegs_cons_ne s m hm
    | cons t ts2 =>
      rw [List.cons_append, joinSegs_cons_ne s ((t :: ts2) ++ m) (by simp),
        ih (by simp), joinSegs_cons_ne s (t :: ts2) (by simp)]
      simp [String.append_assoc]

theorem renderAbs_append (l m : List String) (hl : l ≠ []) (hm : m ≠ []) :
    renderAbs (l ++ m) = renderAbs l ++ ("/" ++ joinSegs m) := by
  simp only [renderAbs, joinSegs_append l m hl hm]
  simp [String.append_assoc]

theorem splitKeepCh_ne_nil (cs : List Char) : splitKeepCh cs ≠ [] := by
  induction cs with
  | nil => simp [splitKeepCh]
  | cons c rest ih =>
    simp only [splitKeepCh]
    split
    · simp
    · simp

theorem splitKeepCh_no_slash (cs : List Char) (h : ∀ c ∈ cs, c ≠ '/') :
    splitKeepCh cs = [String.mk cs] := by
  induction cs with
  | nil => rfl
  | cons c rest ih =>
    simp only [splitKeepCh]
    rw [if_neg (h c (by simp))]
    rw [ih (fun x hx => h x (by simp [hx]))]
    simp

theorem splitKeepCh_slash_append (xs ys : List Char) (h : ∀ c ∈ xs, c ≠ '/') :
    splitKeepCh (xs ++ '/' :: ys) = String.mk xs :: splitKeepCh ys := by
  induction xs with
  | nil => simp [splitKeepCh]
  | cons c rest ih =>
    simp only [List.cons_append, splitKeepCh]
    rw [if_neg (h c (by simp))]
    simp only [List.append_eq]
    rw [ih (fun x hx => h x (by simp [hx]))]
    simp

theorem splitKeepCh_wf (cs : List Char) :
    ∀ s ∈ splitKeepCh cs, ∀ c ∈ s.toList, c ≠ '/' := by
  induction cs with
  | nil =>
    intro s hs c hc
    simp only [splitKeepCh, List.mem_singleton] at hs
    subst hs
    cases hc
  | cons c0 rest ih =>
    intro s hs c hc
    simp only [splitKeepCh] at hs
    by_cases h0 : c0 = '/'
    · rw [if_pos h0] at hs
      rcases List.mem_cons.mp hs with heq | hmem
      · subst heq; cases hc
      · exact ih s hmem c hc
    · rw [if_neg h0] at hs
      rcases List.mem_cons.mp hs with heq | hmem
      · subst heq
        simp only [String.toList] at hc
        rcases List.mem_cons.mp hc with heq2 | hmem2
        · subst heq2; exact h0
        · rcases hr : splitKeepCh rest with _ | ⟨a, as⟩
          · exact absurd hr (splitKeepCh_ne_nil rest)
          · rw [hr] at hmem2
            exact ih a (by rw [hr]; simp) c (by simpa using hmem2)
      · rcases hr : splitKeepCh rest with _ | ⟨a, as⟩
        · exact absurd hr (splitKeepCh_ne_nil rest)
        · rw [hr] at hmem
          exact ih s (by rw [hr]; exact List.mem_cons_of_mem a hmem) c hc

theorem splitKeep_joinSegs : ∀ l : List String, l ≠ [] →
    (∀ s ∈ l, ∀ c ∈ s.toList, c ≠ '/') → splitKeepCh (joinSegs l).toList = l := by
  intro l
  induction l with
  | nil => intro h; cases h rfl
  | cons s rest ih =>
    intro _ hwf
    cases rest with
    | nil =>
      show splitKeepCh (joinSegs [s]).toList = [s]
      rw [show joinSegs [s] = s from rfl,
        splitKeepCh_no_slash s.toList (hwf s (by simp)), mk_toList]
    | cons t ts =>
      rw [joinSegs_cons_ne s (t :: ts) (by simp)]
      have h1 : (s ++ "/" ++ joinSegs (t :: ts)).toList
          = s.toList ++ '/' :: (joinSegs (t :: ts)).toList := by
        rw [toList_append, toList_append]
        simp
      rw [h1, splitKeepCh_slash_append _ _ (hwf s (by simp)), mk_toList,
        ih (by simp) (fun x hx c hc => hwf x (by simp [hx]) c hc)]

theorem splitSegs_wf (s : String) :
    ∀ seg ∈ splitSegs s, seg ≠ "" ∧ ∀ c ∈ seg.toList, c ≠ '/' := by
  intro seg hseg
  simp only [splitSegs, List.mem_filter] at hseg
  exact ⟨by simpa using hseg.2, splitKeepCh_wf s.toList seg hseg.1⟩

theorem splitSegs_joinSegs (l : List String) (hne : l ≠ [])
    (hwf : ∀ s ∈ l, s ≠ "" ∧ ∀ c ∈ s.toList, c ≠ '/') : splitSegs (joinSegs l) = l := by
  simp only [splitSegs]
  rw [splitKeep_joinSegs l hne (fun s hs => (hwf s hs).2)]
  exact List.filter_eq_self.mpr (fun s hs => by simpa using (hwf s hs).1)

theorem splitSegs_renderAbs (l : List String)
    (hwf : ∀ s ∈ l, s ≠ "" ∧ ∀ c ∈ s.toList, c ≠ '/') : splitSegs (renderAbs l) = l := by
  cases l with
  | nil => rfl
  | cons s rest =>
    simp only [splitSegs, renderAbs]
    have h1 : ("/" ++ joinSegs (s :: rest)).toList = '/' :: (joinSegs (s :: rest)).toList := by
      rw [toList_append]; rfl
    rw [h1]
    have h2 : splitKeepCh ('/' :: (joinSegs (s :: rest)).toList)
        = "" :: splitKeepCh ((joinSegs (s :: rest)).toList) := by
      simp [splitKeepCh]
    rw [h2, splitKeep_joinSegs (s :: rest) (by simp) (fun x hx => (hwf x hx).2)]
    rw [List.filter_cons_of_neg (by simp)]
    exact List.filter_eq_self.mpr (fun x hx => by simpa using (hwf x hx).1)

theorem normStack_append (xs ys : List String) :
    ∀ acc, normStack acc (xs ++ ys) = normStack (normStack acc xs) ys := by
  induction xs with
  | nil => intro acc; rfl
  | cons s rest ih =>
    intro acc
    simp only [List.cons_append, normStack]
    split
    · exact ih acc
    · split
      · exact ih _
      · exact ih _

theorem normStack_clean (l : List String) (h : ∀ s ∈ l, s ≠ "." ∧ s ≠ "..") :
    ∀ acc, normStack acc l = l.reverse ++ acc := by
  induction l with
  | nil => intro acc; rfl
  | cons s rest ih =>
    intro acc
    simp only [normStack]
    rw [if_neg (h s (by simp)).1, if_neg (h s (by simp)).2,
      ih (fun x hx => h x (by simp [hx])) (s :: acc)]
    simp

theorem normSegs_clean (l : List String) (h : ∀ s ∈ l, s ≠ "." ∧ s ≠ "..") :
    normSegs l = l := by
  simp only [normSegs]
  rw [normStack_clean l h []]
  simp

theorem normSegs_dot_append (l1 l2 : List String)
    (h1 : ∀ s ∈ l1, s ≠ "." ∧ s ≠ "..") (h2 : ∀ s ∈ l2, s ≠ "." ∧ s ≠ "..") :
    normSegs (l1 ++ "." :: l2) = l1 ++ l2 := by
  simp only [normSegs]
  rw [normStack_append, normStack_clean l1 h1 []]
  have hdot : normStack (l1.reverse ++ []) ("." :: l2) = normStack (l1.reverse ++ []) l2 := by
    simp [normStack]
  rw [hdot, normStack_clean l2 h2]
  simp

theorem stripCommon_append (xs ys : List String) : stripCommon xs (xs ++ ys) = ([], ys) := by
  induction xs with
  | nil => cases ys with | nil => rfl | cons a as => rfl
  | cons x rest ih =>
    simp only [List.cons_append, stripCommon, if_pos rfl]
    exact ih

theorem getLastD_irrel {α : Type} (a : α) (t : List α) (d1 d2 : α) :
    (a :: t).getLastD d1 = (a :: t).getLastD d2 := by
  rw [List.getLastD_cons, List.getLastD_cons]

theorem getLastD_append_right {α : Type} (l1 l2 : List α) (d : α) (h : l2 ≠ []) :
    (l1 ++ l2).getLastD d = l2.getLastD d := by
  rw [List.getLastD_eq_getLast?, List.getLastD_eq_getLast?,
    List.getLast?_append_of_ne_nil l1 h]

theorem dropLast_append_right {α : Type} (l1 l2 : List α) (h : l2 ≠ []) :
    (l1 ++ l2).dropLast = l1 ++ l2.dropLast :=
  List.dropLast_append_of_ne_nil l1 h

theorem joinSegs_modifyLast (l : List String) (hne : l ≠ []) (x : String) :
    joinSegs (l.dropLast ++ [l.getLastD "" ++ x]) = joinSegs l ++ x := by
  induction l with
  | nil => cases hne rfl
  | cons s rest ih =>
    cases rest with
    | nil => rfl
    | cons t ts =>
      have h1 : (t :: ts).dropLast ++ [(t :: ts).getLastD "" ++ x] ≠ [] := by simp
      rw [List.getLastD_cons, show (s :: t :: ts).dropLast = s :: (t :: ts).dropLast from rfl,
        getLastD_irrel t ts s "", List.cons_append, joinSegs_cons_ne s _ h1, ih (by simp),
        joinSegs_cons_ne s (t :: ts) (by simp)]
      simp [String.append_assoc]

theorem getLastD_mem {α : Type} (l : List α) (d : α) (h : l ≠ []) : l.getLastD d ∈ l := by
  induction l generalizing d with
  | nil => cases h rfl
  | cons a t ih =>
    rw [List.getLastD_cons]
    cases t with
    | nil => simp
    | cons b t2 => exact List.mem_cons_of_mem a (ih a (by simp))

theorem toList_ne_nil (s : String) (h : s ≠ "") : s.toList ≠ [] := by
  intro h0
  apply h
  cases s with
  | mk data =>
    simp only [String.toList] at h0
    subst h0
    rfl

theorem append_tsx_ne_dots (s : String) (h : s ≠ "") :
    s ++ ".tsx" ≠ "." ∧ s ++ ".tsx" ≠ ".." := by
  have hlen : (s ++ ".tsx").toList.length = s.toList.length + 4 := by
    rw [toList_append]; simp
  have hpos : 0 < s.toList.length := List.length_pos.mpr (toList_ne_nil s h)
  constructor
  · intro heq
    have h1 : (s ++ ".tsx").toList.length = 1 := by rw [heq]; rfl
    rw [hlen] at h1
    omega
  · intro heq
    have h1 : (s ++ ".tsx").toList.length = 2 := by rw [heq]; rfl
    rw [hlen] at h1
    omega

theorem extOfSeg_tsx (s : String) (h : s ≠ "") : extOfSeg (s ++ ".tsx") ≠ "" := by
  have hn : 0 < s.toList.length := List.length_pos.mpr (toList_ne_nil s h)
  simp only [extOfSeg, toList_append]
  have htl : (".tsx" : String).toList = ['.', 't', 's', 'x'] := rfl
  rw [htl]
  have hcont : (s.toList ++ ['.', 't', 's', 'x']).contains '.' = true := by
    simpa using Or.inr (show ('.' : Char) ∈ ['.', 't', 's', 'x'] by simp)
  rw [if_pos hcont]
  have hrev : (s.toList ++ ['.', 't', 's', 'x']).reverse
      = 'x' :: 's' :: 't' :: '.' :: s.toList.reverse := by simp
  rw [hrev]
  have htw : List.takeWhile (fun c => decide (c ≠ '.'))
      ('x' :: 's' :: 't' :: '.' :: s.toList.reverse) = ['x', 's', 't'] := by
    simp [List.takeWhile_cons]
  rw [htw]
  split
  · rename_i hzero
    simp only [List.length_append, List.length_cons, List.length_nil] at hzero
    omega
  · intro hmk
    have hdata := congrArg String.toList hmk
    simp only [String.toList] at hdata
    have hnil : (s.toList ++ ['.', 't', 's', 'x']).drop
        ((s.toList ++ ['.', 't', 's', 'x']).length - 1 - (['x', 's', 't'] : List Char).length)
        = [] := hdata
    rw [List.drop_eq_nil_iff] at hnil
    simp only [List.length_append, List.length_cons, List.length_nil] at hnil
    omega

theorem pathRelative_renderAbs (base : String) (m : List String)
    (hbclean : ∀ s ∈ splitSegs base, s ≠ "." ∧ s ≠ "..")
    (hmwf : ∀ s ∈ m, s ≠ "" ∧ ∀ c ∈ s.toList, c ≠ '/')
    (hmclean : ∀ s ∈ m, s ≠ "." ∧ s ≠ "..") :
    pathRelative base (renderAbs (splitSegs base ++ m)) = joinSegs m := by
  simp only [pathRelative]
  rw [normSegs_clean _ hbclean]
  rw [splitSegs_renderAbs (splitSegs base ++ m) (fun s hs => by
    rcases List.mem_append.mp hs with hh | hh
    · exact splitSegs_wf base s hh
    · exact hmwf s hh)]
  rw [normSegs_clean (splitSegs base ++ m) (fun s hs => by
    rcases List.mem_append.mp hs with hh | hh
    · exact hbclean s hh
    · exact hmclean s hh)]
  rw [stripCommon_append]
  simp

theorem splitKeep_joinSegs_str (l : List String) (hne : l ≠ [])
    (hwf : ∀ s ∈ l, ∀ c ∈ s.toList, c ≠ '/') : splitKeep (joinSegs l) = l :=
  splitKeep_joinSegs l hne hwf

/-- In a prefix-free well-formed index, the shortening loop started from
the segments of the current component's name (followed by further
directory parts of an import into its own subtree) never finds a
different component. -/
theorem shortenLoop_none_pf (base : String) (comps : List Comp) (current : Comp)
    (ns restD : List String)
    (hmem : current ∈ comps)
    (hwf : ∀ c ∈ comps, c.path = renderAbs (splitSegs base ++ splitSegs c.name))
    (hpf : ∀ c ∈ comps, ∀ c2 ∈ comps, strStartsWith c2.path c.path = true → c = c2)
    (hns : splitSegs current.name = ns) (hnsne : ns ≠ [])
    (hnswf : ∀ s ∈ ns, s ≠ "" ∧ ∀ c ∈ s.toList, c ≠ '/')
    (hrdwf : ∀ s ∈ restD, s ≠ "" ∧ ∀ c ∈ s.toList, c ≠ '/') :
    ∀ n, n ≤ (ns ++ restD).length →
      shortenLoop (ns ++ restD) comps (joinSegs ns) n = none := by
  intro n
  induction n with
  | zero => intro _; rfl
  | succ i ih =>
    intro hle
    simp only [shortenLoop]
    split
    · rename_i c hfc
      have hcmem := List.mem_of_find?_eq_some hfc
      have hcname : c.name = joinSegs ((ns ++ restD).take (i + 1)) := by
        simpa using List.find?_some hfc
      rcases le_or_lt (i + 1) ns.length with hle2 | hgt
      · have htake : (ns ++ restD).take (i + 1) = ns.take (i + 1) :=
          List.take_append_of_le_length hle2
        rcases eq_or_lt_of_le hle2 with heq | hlt
        · have hpn : joinSegs ((ns ++ restD).take (i + 1)) = joinSegs ns := by
            rw [htake, heq, List.take_length]
          rw [if_neg (by simp [hcname, hpn])]
          exact ih (by omega)
        · exfalso
          have htkne : ns.take (i + 1) ≠ [] := by
            intro h0
            have := congrArg List.length h0
            simp only [List.length_take, List.length_nil] at this
            omega
          have hsp : splitSegs c.name = ns.take (i + 1) := by
            rw [hcname, htake]
            exact splitSegs_joinSegs _ htkne
              (fun s hs => hnswf s (List.take_subset (i + 1) ns hs))
          have hsw : strStartsWith current.path c.path = true := by
            rw [hwf current hmem, hns, hwf c hcmem, hsp]
            rw [show splitSegs base ++ ns
                = (splitSegs base ++ ns.take (i + 1)) ++ ns.drop (i + 1) from by
              rw [List.append_assoc, List.take_append_drop]]
            rw [renderAbs_append _ _ (by simp [htkne]) (by
              intro h0
              have := congrArg List.length h0
              simp only [List.length_drop, List.length_nil] at this
              omega)]
            exact strStartsWith_two _ _
          have hceq := hpf c hcmem current hmem hsw
          have hlen := congrArg List.length hsp
          rw [hceq, hns] at hlen
          simp only [List.length_take] at hlen
          omega
      · exfalso
        have hlen2 : i + 1 ≤ ns.length + restD.length := by
          simpa using hle
        have htake : (ns ++ restD).take (i + 1) = ns ++ restD.take (i + 1 - ns.length) := by
          rw [List.take_append_eq_append_take, List.take_of_length_le (by omega)]
        have hkne : restD.take (i + 1 - ns.length) ≠ [] := by
          intro h0
          have := congrArg List.length h0
          simp only [List.length_take, List.length_nil] at this
          omega
        have hsp : splitSegs c.name = ns ++ restD.take (i + 1 - ns.length) := by
          rw [hcname, htake]
          exact splitSegs_joinSegs _ (by simp [hnsne]) (fun s hs => by
            rcases List.mem_append.mp hs with hh | hh
            · exact hnswf s hh
            · exact hrdwf s (List.take_subset _ restD hh))
        have hsw : strStartsWith c.path current.path = true := by
          rw [hwf current hmem, hns, hwf c hcmem, hsp]
          rw [show splitSegs base ++ (ns ++ restD.take (i + 1 - ns.length))
              = (splitSegs base ++ ns) ++ restD.take (i + 1 - ns.length) from by
            rw [List.append_assoc]]
          rw [renderAbs_append _ _ (by simp [hnsne]) hkne]
          exact strStartsWith_two _ _
        have hceq := hpf current hmem c hcmem hsw
        have hlen := congrArg List.length hsp
        rw [← hceq, hns] at hlen
        simp only [List.length_append, List.length_take] at hlen
        omega
    · exact ih (by omega)

/-- Core of the amended C3: in a prefix-free well-formed index, a
candidate path inside the current component's own directory subtree is
classified as no cross-component dependency. -/
theorem resolveFrom_none_core (base R : String) (comps : List Comp) (current : Comp)
    (ns restF : List String)
    (hmem : current ∈ comps)
    (hwf : ∀ c ∈ comps, c.path = renderAbs (splitSegs base ++ splitSegs c.name))
    (hpf : ∀ c ∈ comps, ∀ c2 ∈ comps, strStartsWith c2.path c.path = true → c = c2)
    (hbclean : ∀ s ∈ splitSegs base, s ≠ "." ∧ s ≠ "..")
    (hns : splitSegs current.name = ns) (hnsne : ns ≠ [])
    (hnsclean : ∀ s ∈ ns, s ≠ "." ∧ s ≠ "..")
    (hR : R = renderAbs ((splitSegs base ++ ns) ++ restF))
    (hrfne : restF ≠ [])
    (hrfwf : ∀ s ∈ restF, s ≠ "" ∧ ∀ c ∈ s.toList, c ≠ '/')
    (hrfclean : ∀ s ∈ restF, s ≠ "." ∧ s ≠ "..")
    (hextF : extOfSeg (restF.getLastD "") ≠ "") :
    resolveComponentDependencyFrom R current.path base comps = none := by
  have hnswf : ∀ s ∈ ns, s ≠ "" ∧ ∀ c ∈ s.toList, c ≠ '/' := by
    intro s hs
    rw [← hns] at hs
    exact splitSegs_wf current.name s hs
  have hRstart : strStartsWith R current.path = true := by
    rw [hR, renderAbs_append _ _ (by simp [hnsne]) hrfne, hwf current hmem, hns]
    exact strStartsWith_two _ _
  have hfind : comps.find? (fun component =>
      strStartsWith R component.path && component.path != current.path) = none := by
    rw [List.find?_eq_none]
    intro c hc
    by_cases h1 : strStartsWith R c.path = true
    · rcases strPrefixTotal R c.path current.path h1 hRstart with h3 | h3
      · have hceq := hpf current hmem c hc h3
        simp [← hceq]
      · have hceq := hpf c hc current hmem h3
        simp [hceq]
    · simp [h1]
  simp only [resolveComponentDependencyFrom]
  by_cases hguard : strStartsWith R base = false
  · rw [if_pos hguard]
  · rw [if_neg hguard]
    split
    · rename_i c hfc
      rw [hfind] at hfc
      cases hfc
    · have hrel2 : pathRelative base R = joinSegs (ns ++ restF) := by
        rw [hR, show (splitSegs base ++ ns) ++ restF = splitSegs base ++ (ns ++ restF) from by
          rw [List.append_assoc]]
        exact pathRelative_renderAbs base (ns ++ restF)
          hbclean
          (fun s hs => by
            rcases List.mem_append.mp hs with hh | hh
            · exact hnswf s hh
            · exact hrfwf s hh)
          (fun s hs => by
            rcases List.mem_append.mp hs with hh | hh
            · exact hnsclean s hh
            · exact hrfclean s hh)
      rw [hrel2]
      rw [splitKeep_joinSegs_str (ns ++ restF) (by simp [hnsne]) (fun s hs => by
        rcases List.mem_append.mp hs with hh | hh
        · exact (hnswf s hh).2
        · exact (hrfwf s hh).2)]
      rw [getLastD_append_right ns restF "" hrfne]
      rw [if_pos hextF]
      rw [dropLast_append_right ns restF hrfne]
      have hcur : pathRelative base current.path = joinSegs ns := by
        rw [hwf current hmem, hns]
        exact pathRelative_renderAbs base ns hbclean hnswf hnsclean
      rw [hcur]
      exact shortenLoop_none_pf base comps current ns restF.dropLast hmem hwf hpf hns hnsne
        hnswf (fun s hs => hrfwf s (List.dropLast_subset restF hs)) _ le_rfl

/-- C3 amended: classification is by resolved-path containment, not by
the `./` vs `../` marker (see the counterexample for a nested child).
For a prefix-free, well-formed index — every component's path is the
components root extended by its name, and no component's path is a string
prefix of another's — a same-directory `./` import whose specifier has no
further `.`/`..` segments is never classified as a cross-component
dependency. -/
theorem dotSlash_safe_in_prefix_free_index
    (base imp : String) (comps : List Comp) (current : Comp) (rest : List String)
    (hmem : current ∈ comps)
    (hwf : ∀ c ∈ comps, c.path = renderAbs (splitSegs base ++ splitSegs c.name))
    (hpf : ∀ c ∈ comps, ∀ c2 ∈ comps, strStartsWith c2.path c.path = true → c = c2)
    (hbclean : ∀ s ∈ splitSegs base, s ≠ "." ∧ s ≠ "..")
    (hnclean : ∀ s ∈ splitSegs current.name, s ≠ "." ∧ s ≠ "..")
    (hnne : splitSegs current.name ≠ [])
    (himp : splitSegs imp = "." :: rest)
    (hrclean : ∀ s ∈ rest, s ≠ "." ∧ s ≠ "..")
    (hrne : rest ≠ []) :
    resolveComponentDependency imp current.path base comps = none := by
  have hrwf : ∀ s ∈ rest, s ≠ "" ∧ ∀ c ∈ s.toList, c ≠ '/' := by
    intro s hs
    have hmemi : s ∈ splitSegs imp := by
      rw [himp]; exact List.mem_cons_of_mem _ hs
    exact splitSegs_wf imp s hmemi
  have hnswf : ∀ s ∈ splitSegs current.name, s ≠ "" ∧ ∀ c ∈ s.toList, c ≠ '/' :=
    splitSegs_wf current.name
  have hbwf : ∀ s ∈ splitSegs base, s ≠ "" ∧ ∀ c ∈ s.toList, c ≠ '/' := splitSegs_wf base
  have hres0 : pathResolve current.path imp
      = renderAbs ((splitSegs base ++ splitSegs current.name) ++ rest) := by
    simp only [pathResolve]
    rw [hwf current hmem]
    rw [splitSegs_renderAbs _ (fun s hs => by
      rcases List.mem_append.mp hs with hh | hh
      · exact hbwf s hh
      · exact hnswf s hh)]
    rw [himp]
    rw [normSegs_dot_append _ rest (fun s hs => by
      rcases List.mem_append.mp hs with hh | hh
      · exact hbclean s hh
      · exact hnclean s hh) hrclean]
  simp only [resolveComponentDependency]
  by_cases hext : pathExtname imp = ""
  · rw [if_pos hext]
    have hlastne : rest.getLastD "" ≠ "" := (hrwf _ (getLastD_mem rest "" hrne)).1
    have hR : pathResolve current.path imp ++ ".tsx"
        = renderAbs ((splitSegs base ++ splitSegs current.name)
            ++ (rest.dropLast ++ [rest.getLastD "" ++ ".tsx"])) := by
      rw [hres0]
      simp only [renderAbs]
      rw [String.append_assoc]
      rw [← joinSegs_modifyLast ((splitSegs base ++ splitSegs current.name) ++ rest)
        (by simp [hrne]) ".tsx"]
      rw [dropLast_append_right _ rest hrne, getLastD_append_right _ rest "" hrne,
        List.append_assoc]
    have hrfwf : ∀ s ∈ rest.dropLast ++ [rest.getLastD "" ++ ".tsx"],
        s ≠ "" ∧ ∀ c ∈ s.toList, c ≠ '/' := by
      intro s hs
      rcases List.mem_append.mp hs with hh | hh
      · exact hrwf s (List.dropLast_subset rest hh)
      · have hseq : s = rest.getLastD "" ++ ".tsx" := by simpa using hh
        subst hseq
        constructor
        · intro h0
          have h1 : (rest.getLastD "" ++ ".tsx").toList.length = 0 := by rw [h0]; rfl
          rw [toList_append] at h1
          simp at h1
        · intro c hc
          rw [toList_append] at hc
          rcases List.mem_append.mp hc with hh2 | hh2
          · exact (hrwf _ (getLastD_mem rest "" hrne)).2 c hh2
          · have hh3 : c = '.' ∨ c = 't' ∨ c = 's' ∨ c = 'x' := by
              simpa using hh2
            rcases hh3 with h3 | h3 | h3 | h3 <;> subst h3 <;> decide
    have hrfclean : ∀ s ∈ rest.dropLast ++ [rest.getLastD "" ++ ".tsx"],
        s ≠ "." ∧ s ≠ ".." := by
      intro s hs
      rcases List.mem_append.mp hs with hh | hh
      · exact hrclean s (List.dropLast_subset rest hh)
      · have hseq : s = rest.getLastD "" ++ ".tsx" := by simpa using hh
        subst hseq
        exact append_tsx_ne_dots _ hlastne
    have hextF : extOfSeg ((rest.dropLast ++ [rest.getLastD "" ++ ".tsx"]).getLastD "") ≠ "" := by
      rw [getLastD_append_right _ _ "" (by simp)]
      simp only [List.getLastD_cons, List.getLastD_nil]
      exact extOfSeg_tsx _ hlastne
    exact resolveFrom_none_core base _ comps current (splitSegs current.name)
      (rest.dropLast ++ [rest.getLastD "" ++ ".tsx"]) hmem hwf hpf hbclean rfl hnne hnclean
      hR (by simp) hrfwf hrfclean hextF
  · rw [if_neg hext]
    have hpe : pathExtname imp = extOfSeg (rest.getLastD "") := by
      simp only [pathExtname, pathBasename, himp, List.getLastD_cons]
      cases rest with
      | nil => cases hrne rfl
      | cons a t => rw [getLastD_irrel a t "." ""]
    exact resolveFrom_none_core base _ comps current (splitSegs current.name) rest
      hmem hwf hpf hbclean rfl hnne hnclean hres0 hrne hrwf hrclean (by rw [← hpe]; exact hext)

/-- C3 amended witness: a prefix-free flat index. -/
theorem dotSlash_safe_in_prefix_free_index_witness :
    resolveComponentDependency "./styles/button" "/r/src/components/Alert" "/r/src/components"
      [⟨"Alert", "/r/src/components/Alert"⟩, ⟨"Badge", "/r/src/components/Badge"⟩] = none :=
  dotSlash_safe_in_prefix_free_index "/r/src/components" "./styles/button"
    [⟨"Alert", "/r/src/components/Alert"⟩, ⟨"Badge", "/r/src/components/Badge"⟩]
    ⟨"Alert", "/r/src/components/Alert"⟩ ["styles", "button"] (by decide) (by decide)
    (by decide) (by decide) (by decide) (by decide) (by decide) (by decide) (by decide)
